import Mathlib

/-!
# TextAnimationLab — verification of the timing core

A shallow embedding of the timing/delay computations shared by the
text-animation presets of this repository, together with proofs of the
specified properties.

Strings of the host language are modelled as `List Char`; millisecond
amounts are `Nat` (every constant in the source is a non-negative
integer); the shimmer positions and intensities, which the host computes
in floating point, are modelled as exact rationals `ℚ`.
-/

set_option maxHeartbeats 1000000

namespace TextAnimationLab

/-- A token (a word or a character of the input text), modelled as the
list of its characters. -/
abbrev Word := List Char

/-! ## Shared configuration constants (`CONFIG` in every preset file) -/

/-- `CONFIG.punctPauseLong` (300 ms), shared by all presets. -/
def punctPauseLong : Nat := 300

/-- `CONFIG.punctPauseShort` (150 ms), shared by all presets. -/
def punctPauseShort : Nat := 150

/-! ## Tokenizer (`splitWords`, src/animations/lineSlide.tsx lines 44-46) -/

/-- `text.split(' ')` of the host language: split at every single space
character, keeping the (possibly empty) segments between consecutive
delimiters; the empty string yields `[""]`. -/
def splitOnSpace : List Char → List Word
  | [] => [[]]
  | c :: cs =>
      if c = ' ' then [] :: splitOnSpace cs
      else
        match splitOnSpace cs with
        | [] => [[c]]
        | w :: ws => (c :: w) :: ws

/-- `splitWords(text)`: `text.split(' ').filter((w) => w.length > 0)`. -/
def splitWords (text : List Char) : List Word :=
  (splitOnSpace text).filter (fun w => w.length > 0)

/-! ## Delay scheduler (`computeWordDelays`, src/animations/lineSlide.tsx
lines 48-64; the identical helper is repeated in every preset file) -/

/-- The extra pause the loop body adds after a token, as a function of the
pause constants.  The source reads `const last = words[i].slice(-1)`;
in the host language `''.slice(-1)` is `''` and `'.!?'.includes('')` is
`true`, so a (hypothetical) empty token takes the long-pause branch. -/
def tokenPauseWith (long short : Nat) (w : Word) : Nat :=
  match w.getLast? with
  | none => long
  | some c =>
      if c = '.' ∨ c = '!' ∨ c = '?' then long
      else if c = ',' then short
      else 0

/-- `tokenPauseWith` at the source's `CONFIG` constants. -/
def tokenPause : Word → Nat := tokenPauseWith punctPauseLong punctPauseShort

/-- The cumulative loop of `computeWordDelays` (lines 54-62): push the
running offset, advance it by the stagger, then add the token's pause. -/
def computeWordDelaysAux (staggerMs : Nat) (pause : Word → Nat) :
    List Word → Nat → List Nat
  | [], _ => []
  | w :: ws, cumulative =>
      cumulative :: computeWordDelaysAux staggerMs pause ws
        (cumulative + staggerMs + pause w)

/-- `computeWordDelays(words, staggerMs, punctDelay)`, with the two pause
constants abstracted as parameters (the source reads them from `CONFIG`). -/
def computeWordDelaysWith (long short : Nat) (words : List Word)
    (staggerMs : Nat) (punctDelay : Bool) : List Nat :=
  if !punctDelay then words.mapIdx (fun i _ => i * staggerMs)
  else computeWordDelaysAux staggerMs (tokenPauseWith long short) words 0

/-- `computeWordDelays` exactly as in the source: the pause constants are
the shared `CONFIG` values 300 and 150. -/
def computeWordDelays (words : List Word) (staggerMs : Nat)
    (punctDelay : Bool) : List Nat :=
  computeWordDelaysWith punctPauseLong punctPauseShort words staggerMs punctDelay

/-! ## Split-timing preset (`computeSplitDelays`, src/unnamed/part_002
lines 66-78) -/

/-- `Math.ceil(words.length * 0.6)`.  On the list sizes involved the
host's double-precision product `n * 0.6` rounds so that its ceiling is
the exact ceiling of `3n/5`, which in natural division is `(3n+4)/5`. -/
def splitIndex (n : Nat) : Nat := (3 * n + 4) / 5

/-- `g1End = g1Delays.length > 0 ? g1Delays[g1Delays.length - 1] + 100 : 0`
(part_002 lines 75-76). -/
def splitG1End (g1Delays : List Nat) : Nat :=
  match g1Delays.getLast? with
  | some d => d + 100
  | none => 0

/-- `computeSplitDelays(words, pDelay)`: split at the 60th-percentile
boundary, compute each group's delays with stagger 100, and re-base the
second group past the first group's end plus a fixed 400 ms pause. -/
def computeSplitDelays (words : List Word) (pDelay : Bool) : List Nat :=
  let splitAt := splitIndex words.length
  let group1 := words.take splitAt
  let group2 := words.drop splitAt
  let g1Delays := computeWordDelays group1 100 pDelay
  let g2Delays := computeWordDelays group2 100 pDelay
  g1Delays ++ g2Delays.map (fun d => d + splitG1End g1Delays + 400)

/-! ## SkewPop emphasis preset (src/animations/wordShimmer.tsx, second
file in the bundle: `SkewPop`, lines 289-395) -/

/-- The `SkewPop` composer computes `computeWordDelays(words, 80, punct)`. -/
def skewPopDelays (words : List Word) (punctDelay : Bool) : List Nat :=
  computeWordDelays words 80 punctDelay

/-- Duration of the base reveal track of a `SkewPopWord`: the opacity
timing `withTiming(1, { duration: 300 })` scheduled after the token's
delay. -/
def skewPopRevealDurationMs : Nat := 300

/-- The emphasis sub-timeline (skew + color pulse) of the designated
token is scheduled with `withDelay(600, ...)`, a fixed offset from the
start of the play cycle. -/
def skewPopEmphasisStartMs : Nat := 600

/-- Time at which token `i`'s base reveal has completed: its scheduled
delay plus the reveal duration. -/
def skewPopRevealEndMs (words : List Word) (punctDelay : Bool) (i : Nat) : Nat :=
  (skewPopDelays words punctDelay).getD i 0 + skewPopRevealDurationMs

/-- `emphasisIndex = Math.min(2, words.length - 1)` (wordShimmer.tsx,
`SkewPop`, line 380). -/
def emphasisIndex (tokenCount : Nat) : Nat := min 2 (tokenCount - 1)

/-- `isEmphasis={i === emphasisIndex}` for the token at index `i`. -/
def skewPopIsEmphasis (tokenCount i : Nat) : Bool := i == emphasisIndex tokenCount

/-! ## Shimmer wave intensity (src/animations/wordShimmer.tsx lines
115-118 and src/animations/letterShimmer.tsx lines 120-125) -/

/-- `ShimmerWord` intensity: `Math.max(0, 1 - dist * 0.8)` where `dist`
is the distance from the sweep position to the word's index. -/
def shimmerIntensityWord (pos : ℚ) (index : Nat) : ℚ :=
  max 0 (1 - |pos - (index : ℚ)| * (4 / 5))

/-- `charPos = totalChars > 0 ? index / (totalChars / 4) : 0`
(letterShimmer.tsx line 120). -/
def letterCharPos (index totalChars : Nat) : ℚ :=
  if 0 < totalChars then (index : ℚ) / ((totalChars : ℚ) / 4) else 0

/-- `ShimmerChar` intensity: `Math.max(0, 1 - dist * 0.6)` where `dist`
is the distance from the sweep position to the character's scaled
coordinate. -/
def shimmerIntensityChar (pos : ℚ) (index totalChars : Nat) : ℚ :=
  max 0 (1 - |pos - letterCharPos index totalChars| * (3 / 5))

/-! ## Typewriter preset (src/unnamed/part_001, `Typewriter`, typing
logic lines 69-114, rendering line 122) -/

/-- One fired step of `typeNext`: if every character is already visible
(`index >= text.length`) nothing changes and no further step is
scheduled; otherwise the visible count increases by one. -/
def typewriterStep (len index : Nat) : Nat :=
  if len ≤ index then index else index + 1

/-- Visible-character count after `n` fired timer steps of a play cycle
(the cycle starts from `setVisibleChars(0)`). -/
def typewriterVisible (len : Nat) : Nat → Nat
  | 0 => 0
  | n + 1 => typewriterStep len (typewriterVisible len n)

/-- The rendered string of the `Typewriter` preset:
`text.slice(0, visibleChars)` (line 122). -/
def typewriterRendered (text : List Char) (n : Nat) : List Char :=
  text.take (typewriterVisible text.length n)

/-! ## Specification-side definitions, for comparison with the code -/

/-- Spec §4.2: the cumulative-offset algorithm with the punctuation-pause
steps omitted — a running offset starts at 0; each token is assigned the
current offset, which then advances by the stagger. -/
def cumulativeNoPauseAux (staggerMs : Nat) : List Word → Nat → List Nat
  | [], _ => []
  | _ :: ws, cumulative => cumulative :: cumulativeNoPauseAux staggerMs ws (cumulative + staggerMs)

/-- The spec's cumulative algorithm without pauses, from offset 0. -/
def cumulativeDelaysNoPause (words : List Word) (staggerMs : Nat) : List Nat :=
  cumulativeNoPauseAux staggerMs words 0

/-- Spec §8.1: concatenate word tokens with single spaces. -/
def joinWords : List Word → List Char
  | [] => []
  | [w] => w
  | w :: ws => w ++ ' ' :: joinWords ws

/-- Spec-side space collapsing, part 1: replace every run of consecutive
spaces by a single space, dropping a trailing run entirely. -/
def collapseRuns : List Char → List Char
  | [] => []
  | c :: cs =>
      if c = ' ' then
        match collapseRuns cs with
        | [] => []
        | d :: ds => if d = ' ' then d :: ds else ' ' :: d :: ds
      else c :: collapseRuns cs

/-- Spec-side space collapsing: drop the leading run of spaces, then
collapse interior runs and drop the trailing run ("a string with
collapsed whitespace", spec §8.1). -/
def collapseSpaces (s : List Char) : List Char :=
  collapseRuns (s.dropWhile (fun c => c == ' '))

/-- Spec §4.4: the intensity formula
`max(0, 1 - |position - tokenCoordinate| * falloff)`. -/
def intensityFormula (falloff coord pos : ℚ) : ℚ :=
  max 0 (1 - |pos - coord| * falloff)

/-! ## Basic lemmas about the delay scheduler -/

lemma length_computeWordDelaysAux (s : Nat) (p : Word → Nat) :
    ∀ (ws : List Word) (cum : Nat), (computeWordDelaysAux s p ws cum).length = ws.length
  | [], _ => rfl
  | _ :: ws, _ => congrArg Nat.succ (length_computeWordDelaysAux s p ws _)

lemma getD_computeWordDelaysAux (s : Nat) (p : Word → Nat) (ws : List Word) :
    ∀ (cum i : Nat), i < ws.length →
      (computeWordDelaysAux s p ws cum).getD i 0 =
        cum + s * i + ((ws.take i).map p).sum := by
  induction ws with
  | nil => intro cum i h; simp at h
  | cons w ws ih =>
      intro cum i h
      cases i with
      | zero => simp [computeWordDelaysAux]
      | succ i =>
          have h' : i < ws.length := by simpa using h
          have := ih (cum + s + p w) i h'
          simp only [computeWordDelaysAux, List.getD_cons_succ, List.take_succ_cons,
            List.map_cons, List.sum_cons, this]
          ring

lemma length_computeWordDelaysWith (long short : Nat) (words : List Word)
    (s : Nat) (p : Bool) :
    (computeWordDelaysWith long short words s p).length = words.length := by
  cases p <;>
    simp [computeWordDelaysWith, List.length_mapIdx, length_computeWordDelaysAux]

lemma getD_computeWordDelaysWith_false (long short : Nat) (words : List Word)
    (s : Nat) {i : Nat} (h : i < words.length) :
    (computeWordDelaysWith long short words s false).getD i 0 = i * s := by
  have hl : i < (List.mapIdx (fun i _ => i * s) words).length := by
    simpa [List.length_mapIdx] using h
  simp only [computeWordDelaysWith, Bool.not_false, if_true]
  rw [List.getD_eq_getElem _ _ hl, List.getElem_mapIdx]

lemma head?_computeWordDelaysWith (long short : Nat) (words : List Word)
    (s : Nat) (p : Bool) (h : words ≠ []) :
    (computeWordDelaysWith long short words s p).head? = some 0 := by
  cases words with
  | nil => exact absurd rfl h
  | cons w ws =>
      cases p with
      | false => simp [computeWordDelaysWith, List.mapIdx_cons]
      | true => simp [computeWordDelaysWith, computeWordDelaysAux]

lemma computeWordDelays_nil (s : Nat) (p : Bool) : computeWordDelays [] s p = [] := by
  cases p <;> rfl

/-! ## First claims -/

/-- C9: tokenizing the empty string yields an empty token sequence, and
both delay schedulers map an empty token sequence to an empty delay plan
(no error; the functions are total). -/
theorem empty_input_policy :
    splitWords ("".toList) = []
      ∧ (∀ (staggerMs : Nat) (p : Bool), computeWordDelays [] staggerMs p = [])
      ∧ ∀ (p : Bool), computeSplitDelays [] p = [] := by
  refine ⟨rfl, fun s p => computeWordDelays_nil s p, fun p => ?_⟩
  cases p <;> rfl

/-- C4: with punctuation pausing disabled the scheduler returns
`i * staggerMs` at every index, for any token content, and this fast
path coincides with the spec's cumulative-offset algorithm with the
punctuation-pause steps omitted. -/
theorem no_punct_fast_path :
    ∀ (words : List Word) (staggerMs : Nat),
      computeWordDelays words staggerMs false = cumulativeDelaysNoPause words staggerMs
        ∧ ∀ (i : Nat), i < words.length →
            (computeWordDelays words staggerMs false).getD i 0 = i * staggerMs := by
  intro words s
  constructor
  · have key : ∀ (ws : List Word) (cum : Nat),
        cumulativeNoPauseAux s ws cum = ws.mapIdx (fun i _ => cum + i * s) := by
      intro ws
      induction ws with
      | nil => intro cum; simp [cumulativeNoPauseAux]
      | cons w ws ih =>
          intro cum
          have hfun : (fun (i : Nat) (_ : Word) => cum + (i + 1) * s)
              = fun (i : Nat) (_ : Word) => cum + s + i * s := by
            funext i a; ring
          rw [List.mapIdx_cons, hfun]
          simp only [cumulativeNoPauseAux, ih, Nat.zero_mul, Nat.add_zero]
    show (if !false then words.mapIdx (fun i _ => i * s)
        else computeWordDelaysAux s tokenPause words 0) = cumulativeNoPauseAux s words 0
    simp only [Bool.not_false, if_true, key]
    have hfun0 : (fun (i : Nat) (_ : Word) => 0 + i * s)
        = fun (i : Nat) (_ : Word) => i * s := by
      funext i a; ring
    rw [hfun0]
  · intro i h
    exact getD_computeWordDelaysWith_false _ _ words s h

/-- C4 witness: the fast path evaluated at a concrete input. -/
theorem no_punct_fast_path_witness :
    (computeWordDelays ["ab".toList, "cd".toList] 7 false).getD 1 0 = 1 * 7 :=
  (no_punct_fast_path ["ab".toList, "cd".toList] 7).2 1 (by decide)

/-- C1: with punctuation pausing enabled, a token's delay is the offset
accumulated strictly before it — `staggerMs * i` plus the pauses of the
earlier tokens only — so a token's own terminal punctuation delays only
subsequent tokens; in particular `["Hi,", "there"]` at stagger 100 gives
delays `[0, 250]` and `["Stop.", "Now"]` gives `[0, 400]`. -/
theorem punctuation_pause_affects_only_subsequent :
    (∀ (words : List Word) (staggerMs i : Nat), i < words.length →
        (computeWordDelays words staggerMs true).getD i 0 =
          staggerMs * i + ((words.take i).map tokenPause).sum)
      ∧ computeWordDelays ["Hi,".toList, "there".toList] 100 true = [0, 250]
      ∧ computeWordDelays ["Stop.".toList, "Now".toList] 100 true = [0, 400] := by
  refine ⟨fun words s i h => ?_, by decide, by decide⟩
  show (computeWordDelaysAux s tokenPause words 0).getD i 0 = _
  have h0 := getD_computeWordDelaysAux s tokenPause words 0 i h
  simpa using h0

/-- C1 witness: the characterization applied to the first example token
sequence at index 1. -/
theorem punctuation_pause_affects_only_subsequent_witness :
    (computeWordDelays ["Hi,".toList, "there".toList] 100 true).getD 1 0 =
      100 * 1 + ((([ "Hi,".toList, "there".toList ] : List Word).take 1).map tokenPause).sum :=
  punctuation_pause_affects_only_subsequent.1 ["Hi,".toList, "there".toList] 100 1 (by decide)

/-- C5 (counterexample): in the SkewPop preset the emphasis sub-timeline
starts at the fixed offset 600 ms, but with punctuation pausing enabled
the designated token's base reveal can complete later: for the words
`["a.", "b.", "c"]` the emphasis token's reveal ends at 1060 ms. -/
theorem skewpop_emphasis_counterexample :
    ¬ (skewPopRevealEndMs ["a.".toList, "b.".toList, "c".toList] true
        (emphasisIndex (["a.".toList, "b.".toList, "c".toList] : List Word).length)
          ≤ skewPopEmphasisStartMs) := by decide

/-- C5 (amended): with punctuation pausing disabled, the emphasis
sub-timeline of the designated token begins only after that token's base
reveal has completed (its delay is at most 2 × 80 ms, so the reveal ends
by 460 ms ≤ 600 ms). -/
theorem skewpop_emphasis_after_reveal :
    ∀ (words : List Word), words ≠ [] →
      skewPopRevealEndMs words false (emphasisIndex words.length) ≤
        skewPopEmphasisStartMs := by
  intro words h
  have hlen : 0 < words.length := List.length_pos.mpr h
  have he : emphasisIndex words.length < words.length := by
    unfold emphasisIndex; omega
  have hgetD : (computeWordDelaysWith punctPauseLong punctPauseShort words 80 false).getD
      (emphasisIndex words.length) 0 = emphasisIndex words.length * 80 :=
    getD_computeWordDelaysWith_false _ _ words 80 he
  have he2 : emphasisIndex words.length ≤ 2 := min_le_left _ _
  unfold skewPopRevealEndMs skewPopDelays computeWordDelays skewPopEmphasisStartMs
    skewPopRevealDurationMs
  rw [hgetD]
  omega

/-- C5 witness: the amended statement at a concrete one-word input. -/
theorem skewpop_emphasis_after_reveal_witness :
    skewPopRevealEndMs ["hi".toList] false
        (emphasisIndex (["hi".toList] : List Word).length) ≤ skewPopEmphasisStartMs :=
  skewpop_emphasis_after_reveal ["hi".toList] (by decide)

/-- C6: for every non-empty word sequence the SkewPop preset designates
exactly one emphasis token, at index `min(2, tokenCount - 1)`; for word
counts 1, 2, 3, 10 the emphasis index is 0, 1, 2, 2. -/
theorem emphasis_token_selection :
    ∀ (n : Nat), 1 ≤ n →
      (emphasisIndex n = min 2 (n - 1)
          ∧ ((List.range n).filter (fun i => skewPopIsEmphasis n i)).length = 1)
        ∧ (emphasisIndex 1 = 0 ∧ emphasisIndex 2 = 1 ∧ emphasisIndex 3 = 2
            ∧ emphasisIndex 10 = 2) := by
  intro n hn
  refine ⟨⟨rfl, ?_⟩, by decide, by decide, by decide, by decide⟩
  have he : emphasisIndex n < n := by unfold emphasisIndex; omega
  have hp : (fun i => skewPopIsEmphasis n i) = fun i => i == emphasisIndex n := rfl
  rw [hp, ← List.countP_eq_length_filter]
  have hcount := List.count_eq_one_of_mem (List.nodup_range n) (List.mem_range.mpr he)
  simpa [List.count] using hcount

/-- C6 witness: the selection property at word count 10. -/
theorem emphasis_token_selection_witness :
    (emphasisIndex 10 = min 2 (10 - 1)
        ∧ ((List.range 10).filter (fun i => skewPopIsEmphasis 10 i)).length = 1)
      ∧ (emphasisIndex 1 = 0 ∧ emphasisIndex 2 = 1 ∧ emphasisIndex 3 = 2
          ∧ emphasisIndex 10 = 2) :=
  emphasis_token_selection 10 (by decide)

/-- C7: both shimmer intensities are exactly the spec formula
`max(0, 1 - |position - tokenCoordinate| * falloff)` — with the token
index as coordinate and falloff 0.8 for word shimmer, and the scaled
character coordinate with falloff 0.6 for letter shimmer — and always
lie in the interval [0, 1]. -/
theorem shimmer_intensity_bounds :
    ∀ (pos : ℚ) (index totalChars : Nat),
      shimmerIntensityWord pos index = intensityFormula (4 / 5) (index : ℚ) pos
        ∧ 0 ≤ shimmerIntensityWord pos index
        ∧ shimmerIntensityWord pos index ≤ 1
        ∧ shimmerIntensityChar pos index totalChars =
            intensityFormula (3 / 5) (letterCharPos index totalChars) pos
        ∧ 0 ≤ shimmerIntensityChar pos index totalChars
        ∧ shimmerIntensityChar pos index totalChars ≤ 1 := by
  intro pos index totalChars
  have hw : 0 ≤ |pos - (index : ℚ)| * (4 / 5) := by positivity
  have hc : 0 ≤ |pos - letterCharPos index totalChars| * (3 / 5) := by positivity
  refine ⟨rfl, le_max_left _ _, ?_, rfl, le_max_left _ _, ?_⟩
  · exact max_le (by norm_num) (by linarith)
  · exact max_le (by norm_num) (by linarith)

lemma typewriterVisible_eq_min (len : Nat) : ∀ n, typewriterVisible len n = min n len := by
  intro n
  induction n with
  | zero => simp [typewriterVisible]
  | succ n ih =>
      simp only [typewriterVisible, typewriterStep, ih]
      by_cases h : len ≤ min n len
      · rw [if_pos h]; omega
      · rw [if_neg h]; omega

/-- C10: across a play cycle of the Typewriter preset the visible count
stays within `[0, text.length]`, every fired step while text remains
increases it by exactly one, and the rendered slice is always a prefix
of the input text. -/
theorem typewriter_visible_invariants :
    ∀ (text : List Char) (n : Nat),
      typewriterVisible text.length n ≤ text.length
        ∧ (typewriterVisible text.length n < text.length →
            typewriterVisible text.length (n + 1) = typewriterVisible text.length n + 1)
        ∧ (typewriterRendered text n).IsPrefix text := by
  intro text n
  refine ⟨?_, ?_, List.take_prefix _ _⟩
  · rw [typewriterVisible_eq_min]; omega
  · intro h
    show typewriterStep text.length (typewriterVisible text.length n) = _
    unfold typewriterStep
    rw [if_neg (Nat.not_le.mpr h)]

/-- C10 witness: the single-step increment at a concrete text and step. -/
theorem typewriter_visible_invariants_witness :
    typewriterVisible (['a', 'b', 'c'] : List Char).length 1 < (['a', 'b', 'c'] : List Char).length
      ∧ typewriterVisible (['a', 'b', 'c'] : List Char).length 2 =
          typewriterVisible (['a', 'b', 'c'] : List Char).length 1 + 1 :=
  ⟨by decide, (typewriter_visible_invariants ['a', 'b', 'c'] 1).2.1 (by decide)⟩

/-! ## Monotonicity of the delay plans -/

lemma chain'_computeWordDelaysAux (s : Nat) (p : Word → Nat) (ws : List Word) :
    ∀ (cum : Nat), List.Chain' (fun a b => a + s ≤ b) (computeWordDelaysAux s p ws cum) := by
  induction ws with
  | nil => intro cum; simp [computeWordDelaysAux]
  | cons w ws ih =>
      intro cum
      cases ws with
      | nil => simp [computeWordDelaysAux]
      | cons w2 ws2 =>
          refine List.chain'_cons'.mpr ⟨?_, ih _⟩
          intro b hb
          simp only [computeWordDelaysAux, List.head?_cons, Option.mem_def,
            Option.some.injEq] at hb
          omega

lemma chain'_gap_mapIdx (l : List Word) (s : Nat) :
    List.Chain' (fun a b : Nat => a + s ≤ b) (List.mapIdx (fun i _ => i * s) l) := by
  rw [List.chain'_iff_get]
  intro i h
  have hlen : (List.mapIdx (fun i _ => i * s) l).length = l.length := List.length_mapIdx
  have h1 : i < l.length := by omega
  have h2 : i + 1 < l.length := by omega
  rw [List.get_mapIdx l _ i h1, List.get_mapIdx l _ (i + 1) h2]
  exact le_of_eq (by ring)

lemma chain'_computeWordDelaysWith (long short : Nat) (words : List Word) (s : Nat) (p : Bool) :
    List.Chain' (fun a b => a + s ≤ b) (computeWordDelaysWith long short words s p) := by
  cases p with
  | false => simpa [computeWordDelaysWith] using chain'_gap_mapIdx words s
  | true => simpa [computeWordDelaysWith] using
      chain'_computeWordDelaysAux s (tokenPauseWith long short) words 0

lemma chain'_gap_getD {g : Nat} {l : List Nat}
    (h : List.Chain' (fun a b => a + g ≤ b) l) (i : Nat) (hi : i + 1 < l.length) :
    l.getD i 0 + g ≤ l.getD (i + 1) 0 := by
  rw [List.getD_eq_getElem l 0 (show i < l.length by omega), List.getD_eq_getElem l 0 hi]
  have hg := List.chain'_iff_get.mp h i (by omega)
  simpa using hg

lemma chain'_computeSplitDelays (words : List Word) (p : Bool) :
    List.Chain' (fun a b : Nat => a + 100 ≤ b) (computeSplitDelays words p) := by
  show List.Chain' (fun a b : Nat => a + 100 ≤ b)
    (computeWordDelays (words.take (splitIndex words.length)) 100 p ++
      (computeWordDelays (words.drop (splitIndex words.length)) 100 p).map
        (fun d => d +
          splitG1End (computeWordDelays (words.take (splitIndex words.length)) 100 p) + 400))
  refine List.Chain'.append (chain'_computeWordDelaysWith _ _ _ _ _)
    ((List.chain'_map _).mpr
      ((chain'_computeWordDelaysWith _ _ _ _ _).imp (fun a b hab => by omega))) ?_
  intro x hx y hy
  rw [Option.mem_def] at hx
  rw [Option.mem_def, List.head?_map, Option.map_eq_some'] at hy
  obtain ⟨a, ha, rfl⟩ := hy
  have hg2 : words.drop (splitIndex words.length) ≠ [] := by
    intro hnil
    rw [hnil, computeWordDelays_nil] at ha
    exact Option.noConfusion ha
  have ha0 : a = 0 := by
    have hh := head?_computeWordDelaysWith punctPauseLong punctPauseShort
      (words.drop (splitIndex words.length)) 100 p hg2
    rw [show computeWordDelays (words.drop (splitIndex words.length)) 100 p =
        computeWordDelaysWith punctPauseLong punctPauseShort
          (words.drop (splitIndex words.length)) 100 p from rfl] at ha
    rw [hh] at ha
    exact ((Option.some.injEq _ _).mp ha).symm
  have hend : splitG1End (computeWordDelays (words.take (splitIndex words.length)) 100 p) =
      x + 100 := by
    simp [splitG1End, hx]
  rw [ha0, hend]
  omega

/-- C2: for every token sequence and all stagger and pause parameters,
the delay plan is non-decreasing with adjacent gaps of at least the
stagger; the split-timing plan (whose internal stagger is 100) satisfies
the same bound with gap 100. -/
theorem delay_plan_monotone :
    (∀ (long short : Nat) (words : List Word) (staggerMs : Nat) (punctDelay : Bool) (i : Nat),
        i + 1 < (computeWordDelaysWith long short words staggerMs punctDelay).length →
          (computeWordDelaysWith long short words staggerMs punctDelay).getD i 0 ≤
              (computeWordDelaysWith long short words staggerMs punctDelay).getD (i + 1) 0
            ∧ (computeWordDelaysWith long short words staggerMs punctDelay).getD i 0 + staggerMs ≤
              (computeWordDelaysWith long short words staggerMs punctDelay).getD (i + 1) 0)
      ∧ ∀ (words : List Word) (pDelay : Bool) (i : Nat),
          i + 1 < (computeSplitDelays words pDelay).length →
            (computeSplitDelays words pDelay).getD i 0 ≤
                (computeSplitDelays words pDelay).getD (i + 1) 0
              ∧ (computeSplitDelays words pDelay).getD i 0 + 100 ≤
                (computeSplitDelays words pDelay).getD (i + 1) 0 := by
  constructor
  · intro long short words s p i hi
    have hgap := chain'_gap_getD (chain'_computeWordDelaysWith long short words s p) i hi
    exact ⟨by omega, hgap⟩
  · intro words p i hi
    have hgap := chain'_gap_getD (chain'_computeSplitDelays words p) i hi
    exact ⟨by omega, hgap⟩

/-- C2 witness: the adjacent-gap bound at a concrete plan and index. -/
theorem delay_plan_monotone_witness :
    ((computeWordDelaysWith 300 150 ["Hi,".toList, "there".toList] 100 true).getD 0 0 ≤
          (computeWordDelaysWith 300 150 ["Hi,".toList, "there".toList] 100 true).getD 1 0
        ∧ (computeWordDelaysWith 300 150 ["Hi,".toList, "there".toList] 100 true).getD 0 0 + 100 ≤
          (computeWordDelaysWith 300 150 ["Hi,".toList, "there".toList] 100 true).getD 1 0)
      ∧ ((computeSplitDelays ["a".toList, "b".toList] true).getD 0 0 ≤
            (computeSplitDelays ["a".toList, "b".toList] true).getD 1 0
          ∧ (computeSplitDelays ["a".toList, "b".toList] true).getD 0 0 + 100 ≤
            (computeSplitDelays ["a".toList, "b".toList] true).getD 1 0) :=
  ⟨delay_plan_monotone.1 300 150 ["Hi,".toList, "there".toList] 100 true 0 (by decide),
    delay_plan_monotone.2 ["a".toList, "b".toList] true 0 (by decide)⟩

/-- C3: the split-timing preset partitions the words at `ceil(count * 0.6)`,
computes each group's delays independently with stagger 100, and re-bases
the second group by the first group's last delay plus its stagger plus a
fixed 400 ms; for any 5 tokens with punctuation pausing disabled the
delays are `[0, 100, 200, 700, 800]`. -/
theorem split_timing_preset :
    (∀ (words : List Word) (p : Bool),
        computeSplitDelays words p =
          computeWordDelays (words.take (splitIndex words.length)) 100 p ++
            (computeWordDelays (words.drop (splitIndex words.length)) 100 p).map
              (fun d => d +
                splitG1End (computeWordDelays (words.take (splitIndex words.length)) 100 p) +
                  400))
      ∧ ∀ (words : List Word), words.length = 5 →
          computeSplitDelays words false = [0, 100, 200, 700, 800] := by
  refine ⟨fun words p => rfl, ?_⟩
  intro words h
  rcases words with _ | ⟨a, _ | ⟨b, _ | ⟨c, _ | ⟨d, _ | ⟨e, rest⟩⟩⟩⟩⟩ <;> simp at h
  subst h
  simp [computeSplitDelays, splitIndex, computeWordDelays, computeWordDelaysWith,
    List.mapIdx_cons, List.mapIdx_nil, splitG1End]

/-- C3 witness: the 5-token instance at a concrete word list. -/
theorem split_timing_preset_witness :
    computeSplitDelays ["a".toList, "b".toList, "c".toList, "d".toList, "e".toList] false =
      [0, 100, 200, 700, 800] :=
  split_timing_preset.2 ["a".toList, "b".toList, "c".toList, "d".toList, "e".toList] (by decide)

/-! ## Tokenizer reconstruction -/

lemma splitOnSpace_ne_nil : ∀ (s : List Char), splitOnSpace s ≠ []
  | [] => by simp [splitOnSpace]
  | c :: cs => by
      by_cases hc : c = ' '
      · simp [splitOnSpace, hc]
      · rcases hs : splitOnSpace cs with _ | ⟨w, ws⟩ <;> simp [splitOnSpace, hc, hs]

lemma exists_splitOnSpace (t : List Char) : ∃ w ws, splitOnSpace t = w :: ws := by
  rcases h : splitOnSpace t with _ | ⟨w, ws⟩
  · exact absurd h (splitOnSpace_ne_nil t)
  · exact ⟨w, ws, rfl⟩

lemma splitOnSpace_space (t : List Char) : splitOnSpace (' ' :: t) = [] :: splitOnSpace t := by
  simp [splitOnSpace]

lemma splitOnSpace_nonspace {c : Char} {t : List Char} {w : Word} {ws : List Word}
    (hc : c ≠ ' ') (ht : splitOnSpace t = w :: ws) :
    splitOnSpace (c :: t) = (c :: w) :: ws := by
  simp [splitOnSpace, hc, ht]

lemma splitWords_space (t : List Char) : splitWords (' ' :: t) = splitWords t := by
  simp [splitWords, splitOnSpace_space, List.filter_cons]

lemma splitWords_mem_ne_nil {u : List Char} {w : Word} (h : w ∈ splitWords u) : w ≠ [] := by
  rw [splitWords, List.mem_filter] at h
  intro hw
  subst hw
  simpa using h.2

lemma joinWords_cons_cons (c : Char) (v : Word) (rest : List Word) :
    joinWords ((c :: v) :: rest) = c :: joinWords (v :: rest) := by
  cases rest <;> simp [joinWords]

lemma joinWords_splitWords_cons {c : Char} {t : List Char} {w : Word} {ws : List Word}
    (hc : c ≠ ' ') (ht : splitOnSpace t = w :: ws) :
    joinWords (splitWords (c :: t)) =
      c :: joinWords (w :: ws.filter (fun v => v.length > 0)) := by
  have hsp : splitWords (c :: t) = (c :: w) :: ws.filter (fun v => v.length > 0) := by
    simp [splitWords, splitOnSpace_nonspace hc ht, List.filter_cons]
  rw [hsp, joinWords_cons_cons]

lemma head?_joinWords_splitWords {c : Char} (u : List Char) (hc : c ≠ ' ') :
    (joinWords (splitWords (c :: u))).head? = some c := by
  obtain ⟨w, ws, hu⟩ := exists_splitOnSpace u
  rw [joinWords_splitWords_cons hc hu]
  rfl

lemma collapseRuns_eq_joinWords : ∀ (s : List Char),
    collapseRuns s =
      if s.head? = some ' ' ∧ joinWords (splitWords s) ≠ []
      then ' ' :: joinWords (splitWords s) else joinWords (splitWords s) := by
  intro s
  induction s with
  | nil => simp [collapseRuns, splitWords, splitOnSpace, joinWords, List.filter]
  | cons c t ih =>
      by_cases hc : c = ' '
      · subst hc
        have hsw : splitWords (' ' :: t) = splitWords t := splitWords_space t
        have hcr : collapseRuns (' ' :: t) =
            match collapseRuns t with
            | [] => []
            | d :: ds => if d = ' ' then d :: ds else ' ' :: d :: ds := by
          simp [collapseRuns]
        rw [hcr, hsw]
        simp only [List.head?_cons]
        by_cases hF : joinWords (splitWords t) = []
        · have ht0 : collapseRuns t = [] := by rw [ih]; simp [hF]
          rw [ht0]
          simp [hF]
        · rcases t with _ | ⟨c', u⟩
          · simp [splitWords, splitOnSpace, joinWords, List.filter] at hF
          · by_cases hc' : c' = ' '
            · subst hc'
              have hcr2 : collapseRuns (' ' :: u) =
                  ' ' :: joinWords (splitWords (' ' :: u)) := by
                rw [ih]
                simp [hF]
              rw [hcr2]
              simp [hF]
            · have hih : collapseRuns (c' :: u) = joinWords (splitWords (c' :: u)) := by
                rw [ih]
                simp [hc']
              have hhead := head?_joinWords_splitWords u hc'
              rcases hFe : joinWords (splitWords (c' :: u)) with _ | ⟨d, ds⟩
              · exact absurd hFe hF
              · have hd : d = c' := by
                  rw [hFe] at hhead
                  simpa using hhead
                rw [hih, hFe]
                subst hd
                simp [hc', hF]
      · have hcr : collapseRuns (c :: t) = c :: collapseRuns t := by
          simp [collapseRuns, hc]
        rw [hcr]
        rw [if_neg (fun h => hc (by simpa using h.1))]
        obtain ⟨w, ws, ht⟩ := exists_splitOnSpace t
        rw [joinWords_splitWords_cons hc ht]
        congr 1
        rcases t with _ | ⟨c', u⟩
        · simp [splitOnSpace] at ht
          obtain ⟨hw, hws⟩ := ht
          subst hw
          subst hws
          simp [collapseRuns, joinWords, List.filter]
        · by_cases hc' : c' = ' '
          · subst hc'
            rw [splitOnSpace_space] at ht
            injection ht with hw hws
            subst hw
            subst hws
            rw [ih]
            have hsw : splitWords (' ' :: u) = splitWords u := splitWords_space u
            have hfil : (splitOnSpace u).filter (fun v => v.length > 0) = splitWords u := rfl
            simp only [hsw, hfil, List.head?_cons]
            rcases hsu : splitWords u with _ | ⟨x, xs⟩
            · simp [joinWords]
            · have hxne : x ≠ [] := splitWords_mem_ne_nil (by rw [hsu]; exact List.mem_cons_self x xs)
              have hFne : joinWords (x :: xs) ≠ [] := by
                rcases x with _ | ⟨a, v⟩
                · exact absurd rfl hxne
                · rw [joinWords_cons_cons]; simp
              simp [hFne, joinWords]
          · obtain ⟨w', ws', hu⟩ := exists_splitOnSpace u
            rw [splitOnSpace_nonspace hc' hu] at ht
            injection ht with hw hws
            subst hw
            subst hws
            have hsw : splitWords (c' :: u) =
                (c' :: w') :: ws'.filter (fun v => v.length > 0) := by
              simp [splitWords, splitOnSpace_nonspace hc' hu, List.filter_cons]
            rw [ih]
            rw [if_neg (fun h => hc' (by simpa using h.1))]
            rw [hsw]

lemma splitWords_dropWhile (t : List Char) :
    splitWords (t.dropWhile (fun c => c == ' ')) = splitWords t := by
  induction t with
  | nil => rfl
  | cons c t ih =>
      by_cases hc : c = ' '
      · subst hc
        rw [List.dropWhile_cons]
        simpa [splitWords_space] using ih
      · rw [List.dropWhile_cons]
        simp [hc]

lemma head?_dropWhile_space (t : List Char) :
    (t.dropWhile (fun c => c == ' ')).head? ≠ some ' ' := by
  induction t with
  | nil => simp
  | cons c t ih =>
      rw [List.dropWhile_cons]
      by_cases hc : c = ' '
      · simpa [hc] using ih
      · simp [hc]

/-- C8: word-mode tokenization is deterministic, and joining the word
tokens of any input with single spaces yields exactly the input with its
space runs collapsed (leading and trailing runs dropped, interior runs
reduced to a single space). -/
theorem tokenizer_deterministic_reconstructs :
    (∀ (s : List Char), splitWords s = splitWords s)
      ∧ ∀ (s : List Char), joinWords (splitWords s) = collapseSpaces s := by
  refine ⟨fun s => rfl, fun s => ?_⟩
  rw [collapseSpaces, collapseRuns_eq_joinWords, splitWords_dropWhile]
  rw [if_neg (fun h => head?_dropWhile_space s h.1)]

end TextAnimationLab
